import Mathlib

/-!
Verification development for the ngsxfem tutorial notebooks
(`unfittedFEM.ipynb`, the level-set geometry notebook and the
integration-on-level-set-domains notebook).

The notebooks are glue code around an external finite-element library:
the cut classification (`CutInfo`), facet marking
(`GetFacetsWithNeighborTypes`), dof marking (`GetDofsOfElements`,
`CompoundBitArray`) and subdomain quadrature (`Integrate`) are all
implemented in that library, not in this repository.  Following the
specification document, those components are modelled here from the
spec's contracts (and the notebooks' own markdown documentation of the
library calls), and the claimed properties are proved about the models.

Scalars are modelled as exact rationals: every property at stake is a
sign/partition/measure property that is exact in ℚ.
-/

namespace NgsxfemSpec

/-- The element classification produced by the cut classifier.  The spec
names the tags NEGATIVE / POSITIVE / CUT; the notebooks use the library
names `NEG` / `POS` / `IF`, which we keep. -/
inductive ElemTag
  | NEG
  | POS
  | IF
deriving DecidableEq, Repr

/-- Modelled from the spec: the Cut Classifier of the external `CutInfo`
class (absent from `src/`).  Spec §4.2: CUT (= `IF`) requires a strict
sign change — at least one strictly negative and at least one strictly
positive vertex value; otherwise all-nonpositive values give `NEG`
(zeros allowed, checked first, matching the spec's listing order and its
"one vertex exactly 0 and the rest negative is NEGATIVE" policy), and the
remaining elements are `POS`.  Elements are triangles, so a classification
takes the three vertex values of the P1 level-set field. -/
def classifyVals (f0 f1 f2 : ℚ) : ElemTag :=
  if (f0 < 0 ∨ f1 < 0 ∨ f2 < 0) ∧ (0 < f0 ∨ 0 < f1 ∨ 0 < f2) then ElemTag.IF
  else if f0 ≤ 0 ∧ f1 ≤ 0 ∧ f2 ≤ 0 then ElemTag.NEG
  else ElemTag.POS

/-- A simplicial (triangular) mesh: a number of elements and, for each
element index, its three global vertex indices.  Meshes are immutable;
only the combinatorial data matters for classification. -/
structure Mesh where
  nE : ℕ
  elemVtx : ℕ → Fin 3 → ℕ

/-- A `LevelSetField` is the P1 interpolant: one scalar per mesh vertex
(spec §3).  We represent it as a function from vertex index to ℚ. -/
def LevelSetField : Type := ℕ → ℚ

/-- Classification of one mesh element: read the level-set values at
the element's three vertices and classify their sign pattern. -/
def classifyElem (m : Mesh) (φ : LevelSetField) (e : ℕ) : ElemTag :=
  classifyVals (φ (m.elemVtx e 0)) (φ (m.elemVtx e 1)) (φ (m.elemVtx e 2))

/-- Modelled from the spec: `CutInfo.GetElementsOfType` of the external
library — the set of mesh elements carrying a given tag. -/
def GetElementsOfType (m : Mesh) (φ : LevelSetField) (t : ElemTag) : Finset ℕ :=
  (Finset.range m.nE).filter (fun e => classifyElem m φ e = t)

/-- Branch-free characterization of the classifier: which sign patterns
produce which tag.  Shared by several claims below. -/
lemma classifyVals_spec (f0 f1 f2 : ℚ) :
    (classifyVals f0 f1 f2 = ElemTag.IF ↔
       ((f0 < 0 ∨ f1 < 0 ∨ f2 < 0) ∧ (0 < f0 ∨ 0 < f1 ∨ 0 < f2)))
  ∧ (classifyVals f0 f1 f2 = ElemTag.NEG ↔ (f0 ≤ 0 ∧ f1 ≤ 0 ∧ f2 ≤ 0))
  ∧ (classifyVals f0 f1 f2 = ElemTag.POS ↔
       ((0 ≤ f0 ∧ 0 ≤ f1 ∧ 0 ≤ f2) ∧ (0 < f0 ∨ 0 < f1 ∨ 0 < f2))) := by
  unfold classifyVals
  split_ifs with hc hn
  · refine ⟨iff_of_true rfl hc, iff_of_false (fun h => nomatch h) ?_,
      iff_of_false (fun h => nomatch h) ?_⟩
    · intro h
      rcases hc.2 with hp | hp | hp
      · linarith [h.1]
      · linarith [h.2.1]
      · linarith [h.2.2]
    · intro h
      rcases hc.1 with hm | hm | hm
      · linarith [h.1.1]
      · linarith [h.1.2.1]
      · linarith [h.1.2.2]
  · refine ⟨iff_of_false (fun h => nomatch h) hc, iff_of_true rfl hn,
      iff_of_false (fun h => nomatch h) ?_⟩
    intro h
    rcases h.2 with hp | hp | hp
    · linarith [hn.1]
    · linarith [hn.2.1]
    · linarith [hn.2.2]
  · have hex : 0 < f0 ∨ 0 < f1 ∨ 0 < f2 := by
      by_contra hno
      push_neg at hno
      exact hn ⟨hno.1, hno.2.1, hno.2.2⟩
    have g0 : 0 ≤ f0 := by
      by_contra hlt
      push_neg at hlt
      exact hc ⟨Or.inl hlt, hex⟩
    have g1 : 0 ≤ f1 := by
      by_contra hlt
      push_neg at hlt
      exact hc ⟨Or.inr (Or.inl hlt), hex⟩
    have g2 : 0 ≤ f2 := by
      by_contra hlt
      push_neg at hlt
      exact hc ⟨Or.inr (Or.inr hlt), hex⟩
    exact ⟨iff_of_false (fun h => nomatch h) hc,
      iff_of_false (fun h => nomatch h) hn,
      iff_of_true rfl ⟨⟨g0, g1, g2⟩, hex⟩⟩

/-- C1 (counterexample): the claim demands both "all values ≤ 0 ⟹ NEGATIVE"
and "all values ≥ 0 ⟹ POSITIVE"; on an element whose three vertex values are
all exactly 0 both premises hold, so the two demands conflict.  The classifier
(which follows the spec's listing order, NEGATIVE first) tags this element
`NEG`, so the "all ≥ 0 ⟹ POSITIVE" half of the claim fails at the concrete
input (0, 0, 0). -/
theorem C1_counterexample :
    ((0:ℚ) ≤ 0 ∧ (0:ℚ) ≤ 0 ∧ (0:ℚ) ≤ 0) ∧
    classifyVals 0 0 0 = ElemTag.NEG ∧ classifyVals 0 0 0 ≠ ElemTag.POS := by
  refine ⟨⟨le_refl 0, le_refl 0, le_refl 0⟩, ?_, ?_⟩
  · unfold classifyVals
    norm_num
  · unfold classifyVals
    norm_num
    exact fun h => nomatch h

/-- C1 (amended): an element is CUT (tag `IF`) iff its vertex values contain at
least one strictly negative and at least one strictly positive entry; it is
NEGATIVE iff all values are ≤ 0 (zeros allowed, so one vertex exactly 0 with the
rest negative is NEGATIVE, not CUT); it is POSITIVE iff all values are ≥ 0 and
at least one is strictly positive (the all-zero element being NEGATIVE). -/
theorem C1_classifier_signs (f0 f1 f2 : ℚ) :
    (classifyVals f0 f1 f2 = ElemTag.IF ↔
       ((f0 < 0 ∨ f1 < 0 ∨ f2 < 0) ∧ (0 < f0 ∨ 0 < f1 ∨ 0 < f2)))
  ∧ (classifyVals f0 f1 f2 = ElemTag.NEG ↔ (f0 ≤ 0 ∧ f1 ≤ 0 ∧ f2 ≤ 0))
  ∧ (classifyVals f0 f1 f2 = ElemTag.POS ↔
       ((0 ≤ f0 ∧ 0 ≤ f1 ∧ 0 ≤ f2) ∧ (0 < f0 ∨ 0 < f1 ∨ 0 < f2))) :=
  classifyVals_spec f0 f1 f2

/-- C1 (witness): evaluating the amended characterization at concrete inputs:
(-1, 1, 0) is a strict sign change, hence CUT; (0, -1, -1) has a zero vertex
with the rest negative, hence NEGATIVE, not CUT. -/
theorem C1_classifier_signs_witness :
    classifyVals (-1) 1 0 = ElemTag.IF ∧ classifyVals 0 (-1) (-1) = ElemTag.NEG :=
  ⟨((C1_classifier_signs (-1) 1 0).1).mpr
      ⟨Or.inl (by norm_num), Or.inr (Or.inl (by norm_num))⟩,
   ((C1_classifier_signs 0 (-1) (-1)).2.1).mpr
      ⟨le_refl 0, by norm_num, by norm_num⟩⟩

/-- C3: for every mesh and every level-set field, the element classification
is a partition: the three tag sets NEG, POS, IF cover the whole element range
and are pairwise disjoint (every element receives exactly one tag). -/
theorem C3_partition (m : Mesh) (φ : LevelSetField) :
    (GetElementsOfType m φ ElemTag.NEG ∪ GetElementsOfType m φ ElemTag.POS ∪
       GetElementsOfType m φ ElemTag.IF = Finset.range m.nE)
  ∧ Disjoint (GetElementsOfType m φ ElemTag.NEG) (GetElementsOfType m φ ElemTag.POS)
  ∧ Disjoint (GetElementsOfType m φ ElemTag.NEG) (GetElementsOfType m φ ElemTag.IF)
  ∧ Disjoint (GetElementsOfType m φ ElemTag.POS) (GetElementsOfType m φ ElemTag.IF) := by
  refine ⟨?_, ?_, ?_, ?_⟩
  · ext e
    simp only [GetElementsOfType, Finset.mem_union, Finset.mem_filter]
    constructor
    · rintro ((h | h) | h) <;> exact h.1
    · intro he
      rcases hcl : classifyElem m φ e with _ | _ | _
      · exact Or.inl (Or.inl ⟨he, rfl⟩)
      · exact Or.inl (Or.inr ⟨he, rfl⟩)
      · exact Or.inr ⟨he, rfl⟩
  all_goals
    rw [Finset.disjoint_left]
    intro e h1 h2
    simp only [GetElementsOfType, Finset.mem_filter] at h1 h2
    rw [h1.2] at h2
    exact nomatch h2.2

/-- C8: classification is a pure function of the vertex values with no hidden
state: if two level-set fields agree on every vertex of the mesh (in
particular, when re-running the classifier on the unchanged field), then every
element receives the same tag in both runs and all three tag sets coincide. -/
theorem C8_classify_pure (m : Mesh) (φ φ' : LevelSetField)
    (h : ∀ v : ℕ, φ v = φ' v) :
    (∀ e : ℕ, classifyElem m φ e = classifyElem m φ' e)
  ∧ (∀ t : ElemTag, GetElementsOfType m φ t = GetElementsOfType m φ' t) := by
  have hfun : φ = φ' := funext h
  subst hfun
  exact ⟨fun _ => rfl, fun _ => rfl⟩

/-- C8 (witness): re-running the classifier with a field given by two
syntactically different but pointwise-equal expressions yields the same tag on
a concrete one-element mesh. -/
theorem C8_classify_pure_witness :
    classifyElem ⟨1, fun _ i => (i : ℕ)⟩ (fun v => (v : ℚ) - 1) 0 =
      classifyElem ⟨1, fun _ i => (i : ℕ)⟩ (fun v => ((v : ℚ) + 1) - 2) 0 :=
  (C8_classify_pure ⟨1, fun _ i => (i : ℕ)⟩ (fun v => (v : ℚ) - 1)
    (fun v => ((v : ℚ) + 1) - 2) (fun v => by ring)).1 0

/-! ### Facet marking -/

/-- A mesh facet together with its neighboring elements: every facet has a
left neighbor; interior facets also have a right neighbor, boundary facets do
not. -/
structure Facet where
  left : ℕ
  right : Option ℕ

/-- Modelled from the spec: the combination rule of the external
`GetFacetsWithNeighborTypes` (absent from `src/`), as documented in the
notebook markdown: with `A1`,`A2` the `a`-memberships and `B1`,`B2` the
`b`-memberships of the left and right neighbor, `use_and = true` yields
`(A1 and B2) or (B1 and A2)` and `use_and = false` yields
`(A1 or B2) or (B1 or A2)`. -/
def facetCombine (useAnd a1 a2 b1 b2 : Bool) : Bool :=
  if useAnd then (a1 && b2) || (b1 && a2) else (a1 || b2) || (b1 || a2)

/-- Modelled from the spec: `GetFacetsWithNeighborTypes` on a single facet.
For an interior facet the two neighbors' memberships in the element sets `a`
and `b` are combined by `facetCombine`; for a boundary facet the missing
neighbor's membership in `a` is substituted by `bndValA` and its membership
in `b` by `bndValB`, independently. -/
def classifyFacet (a b : ℕ → Bool) (bndValA bndValB useAnd : Bool)
    (fc : Facet) : Bool :=
  match fc.right with
  | some r => facetCombine useAnd (a fc.left) (a r) (b fc.left) (b r)
  | none => facetCombine useAnd (a fc.left) bndValA (b fc.left) bndValB

/-- C2: for an interior facet with neighbors `(l, r)`, the AND combinator is
true iff (`l∈a` and `r∈b`) or (`r∈a` and `l∈b`), and the OR combinator is true
iff (`l∈a` or `r∈b`) or (`r∈a` or `l∈b`); for a boundary facet with single
neighbor `l`, the missing neighbor's memberships in `a` and in `b` are replaced
by the boundary defaults `bndValA` and `bndValB` independently. -/
theorem C2_facet_rule (a b : ℕ → Bool) (bndValA bndValB : Bool) (l r : ℕ) :
    (classifyFacet a b bndValA bndValB true ⟨l, some r⟩ = true ↔
       ((a l = true ∧ b r = true) ∨ (a r = true ∧ b l = true)))
  ∧ (classifyFacet a b bndValA bndValB false ⟨l, some r⟩ = true ↔
       ((a l = true ∨ b r = true) ∨ (a r = true ∨ b l = true)))
  ∧ (classifyFacet a b bndValA bndValB true ⟨l, none⟩ = true ↔
       ((a l = true ∧ bndValB = true) ∨ (bndValA = true ∧ b l = true)))
  ∧ (classifyFacet a b bndValA bndValB false ⟨l, none⟩ = true ↔
       ((a l = true ∨ bndValB = true) ∨ (bndValA = true ∨ b l = true))) := by
  unfold classifyFacet facetCombine
  refine ⟨?_, ?_, ?_, ?_⟩ <;> simp [Bool.or_eq_true, Bool.and_eq_true] <;> tauto

/-- C2 (witness): with `a` marking element 0 and `b` marking element 1, the
AND combinator marks the interior facet between elements 0 and 1. -/
theorem C2_facet_rule_witness :
    classifyFacet (fun n => decide (n = 0)) (fun n => decide (n = 1))
      false false true ⟨0, some 1⟩ = true :=
  (C2_facet_rule (fun n => decide (n = 0)) (fun n => decide (n = 1))
      false false 0 1).1.mpr (Or.inl ⟨by decide, by decide⟩)

/-! ### Degree-of-freedom marking -/

/-- A finite-element space over the mesh: a global dof count, an element
count, and for each element the list of global dofs supported on it. -/
structure FESpace where
  nDofs : ℕ
  nE : ℕ
  elemDofs : ℕ → List ℕ

/-- Bit lookup in a boolean mask, `false` beyond the end. -/
def bit (mask : List Bool) (i : ℕ) : Bool :=
  mask.getD i false

/-- Mark all dofs of one element in the mask. -/
def markDofs (mask : List Bool) (ds : List ℕ) : List Bool :=
  ds.foldl (fun mk d => mk.set d true) mask

/-- Modelled from the spec: `GetDofsOfElements` of the external library
(absent from `src/`) — start from an all-false mask over the global dof index
space and, for every element in the selected set, mark all dofs supported on
that element. -/
def GetDofsOfElements (V : FESpace) (sel : ℕ → Bool) : List Bool :=
  (List.range V.nE).foldl
    (fun mk e => if sel e then markDofs mk (V.elemDofs e) else mk)
    (List.replicate V.nDofs false)

lemma markDofs_length (mask : List Bool) (ds : List ℕ) :
    (markDofs mask ds).length = mask.length := by
  induction ds generalizing mask with
  | nil => rfl
  | cons d ds ih => simpa [markDofs, List.foldl_cons] using ih (mask.set d true)

lemma bit_set_true_iff (mask : List Bool) (d i : ℕ) :
    bit (mask.set d true) i = true ↔
      (bit mask i = true ∨ (d = i ∧ d < mask.length)) := by
  unfold bit
  rcases Decidable.em (i < mask.length) with hi | hi
  · rw [List.getD_eq_getElem _ _ (by simpa using hi),
      List.getD_eq_getElem _ _ hi]
    rcases Decidable.em (d = i) with hdi | hdi
    · subst hdi
      simp [List.getElem_set, hi]
    · simp [List.getElem_set, hdi]
  · rw [List.getD_eq_default _ _ (by simpa using Nat.le_of_not_lt hi),
      List.getD_eq_default _ _ (Nat.le_of_not_lt hi)]
    constructor
    · intro h
      exact nomatch h
    · rintro (h | ⟨rfl, h⟩)
      · exact nomatch h
      · exact absurd h (fun hlt => hi hlt)

lemma bit_markDofs_iff (mask : List Bool) (ds : List ℕ) (i : ℕ) :
    bit (markDofs mask ds) i = true ↔
      (bit mask i = true ∨ (i ∈ ds ∧ i < mask.length)) := by
  induction ds generalizing mask with
  | nil => simp [markDofs]
  | cons d ds ih =>
    have hstep := ih (mask.set d true)
    simp only [markDofs, List.foldl_cons] at hstep ⊢
    rw [hstep, bit_set_true_iff, List.length_set]
    have hmem : i ∈ d :: ds ↔ (i = d ∨ i ∈ ds) := List.mem_cons
    have heq : (d = i ∧ d < mask.length) ↔ (i = d ∧ i < mask.length) := by
      constructor
      · rintro ⟨rfl, h⟩
        exact ⟨rfl, h⟩
      · rintro ⟨rfl, h⟩
        exact ⟨rfl, h⟩
    rw [hmem, heq]
    tauto

lemma bit_fold_mark (V : FESpace) (sel : ℕ → Bool) (l : List ℕ)
    (mask : List Bool) (hlen : mask.length = V.nDofs) (i : ℕ) :
    bit (l.foldl (fun mk e => if sel e then markDofs mk (V.elemDofs e) else mk) mask) i = true ↔
      (bit mask i = true ∨
        ∃ e, e ∈ l ∧ sel e = true ∧ i ∈ V.elemDofs e ∧ i < V.nDofs) := by
  induction l generalizing mask with
  | nil => simp
  | cons e l ih =>
    simp only [List.foldl_cons]
    have hlen' : (if sel e then markDofs mask (V.elemDofs e) else mask).length = V.nDofs := by
      rcases Decidable.em (sel e = true) with hse | hse
      · simp [hse, markDofs_length, hlen]
      · simp [hse, hlen]
    rw [ih _ hlen']
    rcases Decidable.em (sel e = true) with hse | hse
    · rw [if_pos hse, bit_markDofs_iff, hlen]
      constructor
      · rintro ((h | h) | ⟨e', he', hsel', hd', hlt'⟩)
        · exact Or.inl h
        · exact Or.inr ⟨e, List.mem_cons_self e l, hse, h.1, h.2⟩
        · exact Or.inr ⟨e', List.mem_cons_of_mem e he', hsel', hd', hlt'⟩
      · rintro (h | ⟨e', he', hsel', hd', hlt'⟩)
        · exact Or.inl (Or.inl h)
        · rcases List.mem_cons.mp he' with rfl | he''
          · exact Or.inl (Or.inr ⟨hd', hlt'⟩)
          · exact Or.inr ⟨e', he'', hsel', hd', hlt'⟩
    · rw [if_neg hse]
      constructor
      · rintro (h | ⟨e', he', hsel', hd', hlt'⟩)
        · exact Or.inl h
        · exact Or.inr ⟨e', List.mem_cons_of_mem e he', hsel', hd', hlt'⟩
      · rintro (h | ⟨e', he', hsel', hd', hlt'⟩)
        · exact Or.inl h
        · rcases List.mem_cons.mp he' with rfl | he''
          · exact absurd hsel' hse
          · exact Or.inr ⟨e', he'', hsel', hd', hlt'⟩

/-- The computed dof mask, characterized pointwise. -/
lemma bit_GetDofsOfElements (V : FESpace) (sel : ℕ → Bool) (i : ℕ) :
    bit (GetDofsOfElements V sel) i = true ↔
      ∃ e, e < V.nE ∧ sel e = true ∧ i ∈ V.elemDofs e ∧ i < V.nDofs := by
  unfold GetDofsOfElements
  rw [bit_fold_mark V sel _ _ (List.length_replicate _ _) i]
  have hrep : bit (List.replicate V.nDofs false) i = true ↔ False := by
    unfold bit
    rcases Decidable.em (i < V.nDofs) with hi | hi
    · rw [List.getD_eq_getElem _ _ (by simpa using hi)]
      simp
    · rw [List.getD_eq_default _ _ (by simpa using Nat.le_of_not_lt hi)]
      simp
  rw [hrep]
  simp [List.mem_range]

/-- C4: for every finite-element space and every selected element set, a
(valid) global dof is in the mask produced by `GetDofsOfElements` iff at least
one element of its support set (the elements whose dof list contains it) is in
the selected set. -/
theorem C4_dof_mask (V : FESpace) (sel : ℕ → Bool) (d : ℕ) (hd : d < V.nDofs) :
    bit (GetDofsOfElements V sel) d = true ↔
      ∃ e, e < V.nE ∧ d ∈ V.elemDofs e ∧ sel e = true := by
  rw [bit_GetDofsOfElements]
  constructor
  · rintro ⟨e, he, hs, hm, _⟩
    exact ⟨e, he, hm, hs⟩
  · rintro ⟨e, he, hm, hs⟩
    exact ⟨e, he, hs, hm, hd⟩

/-- C4 (witness): on a two-dof space with a single element supporting dof 0,
selecting that element activates dof 0. -/
theorem C4_dof_mask_witness :
    bit (GetDofsOfElements ⟨2, 1, fun _ => [0]⟩ (fun _ => true)) 0 = true :=
  (C4_dof_mask ⟨2, 1, fun _ => [0]⟩ (fun _ => true) 0 (by norm_num)).mpr
    ⟨0, by norm_num, by simp, rfl⟩

/-- Modelled from the spec: `CompoundBitArray` of the external library
(absent from `src/`) — the mask of a compound (product) space is the
concatenation of the component masks, preserving component order. -/
def CompoundBitArray (masks : List (List Bool)) : List Bool :=
  masks.foldr (fun mk acc => mk ++ acc) []

/-- The notebook's computation: mask component 0 of the product space against
the has-negative element set and component 1 against the has-positive element
set, then concatenate (`CompoundBitArray [GetDofsOfElements Vh hasneg,
GetDofsOfElements Vh haspos]`). -/
def relevantdofs (Vh : FESpace) (hasneg haspos : ℕ → Bool) : List Bool :=
  CompoundBitArray [GetDofsOfElements Vh hasneg, GetDofsOfElements Vh haspos]

/-- The notebook's `freedofs &= relevantdofs`: intersect the space's native
free-dof mask with the activity mask, bitwise. -/
def andMask (native relevant : List Bool) : List Bool :=
  List.zipWith (fun x y => x && y) native relevant

lemma fold_mark_length (V : FESpace) (sel : ℕ → Bool) (l : List ℕ)
    (mask : List Bool) :
    (l.foldl (fun mk e => if sel e then markDofs mk (V.elemDofs e) else mk) mask).length =
      mask.length := by
  induction l generalizing mask with
  | nil => rfl
  | cons e l ih =>
    simp only [List.foldl_cons]
    rw [ih]
    rcases Decidable.em (sel e = true) with hse | hse
    · simp [hse, markDofs_length]
    · simp [hse]

lemma GetDofsOfElements_length (V : FESpace) (sel : ℕ → Bool) :
    (GetDofsOfElements V sel).length = V.nDofs := by
  unfold GetDofsOfElements
  rw [fold_mark_length, List.length_replicate]

lemma bit_zipWith_and (a b : List Bool) (k : ℕ) :
    bit (List.zipWith (fun x y => x && y) a b) k = (bit a k && bit b k) := by
  induction a generalizing b k with
  | nil => simp [bit]
  | cons x a ih =>
    cases b with
    | nil => simp [bit]
    | cons y b =>
      cases k with
      | zero => simp [bit]
      | succ k => simpa [bit, List.getD_cons_succ] using ih b k

/-- C5: the compound-space mask is the concatenation of the per-component
masks in component order — bits below `nDofs` come from component 0's mask
(taken against the has-negative set), bits from `nDofs` on come from component
1's mask (taken against the has-positive set) — and the global free-dof mask
is the bitwise conjunction of the space's native free-dof mask with this
activity mask. -/
theorem C5_compound_mask (Vh : FESpace) (hasneg haspos : ℕ → Bool)
    (native : List Bool) (i j : ℕ) (hi : i < Vh.nDofs) :
    (bit (relevantdofs Vh hasneg haspos) i = bit (GetDofsOfElements Vh hasneg) i)
  ∧ (bit (relevantdofs Vh hasneg haspos) (Vh.nDofs + j) =
       bit (GetDofsOfElements Vh haspos) j)
  ∧ (∀ k : ℕ, bit (andMask native (relevantdofs Vh hasneg haspos)) k =
       (bit native k && bit (relevantdofs Vh hasneg haspos) k)) := by
  have hrel : relevantdofs Vh hasneg haspos =
      GetDofsOfElements Vh hasneg ++ GetDofsOfElements Vh haspos := by
    unfold relevantdofs CompoundBitArray
    simp
  refine ⟨?_, ?_, ?_⟩
  · rw [hrel]
    unfold bit
    exact List.getD_append _ _ _ _ (by rw [GetDofsOfElements_length]; exact hi)
  · rw [hrel]
    unfold bit
    rw [List.getD_append_right _ _ _ _ (by rw [GetDofsOfElements_length]; exact Nat.le_add_right _ _)]
    rw [GetDofsOfElements_length, Nat.add_sub_cancel_left]
  · intro k
    exact bit_zipWith_and native _ k

/-- C5 (witness): a concrete product mask — one component space with a single
dof, component 0 active (`hasneg` selects the element), component 1 inactive
(`haspos` selects nothing); a native free mask `[true, true]` intersects to
`[true, false]`. -/
theorem C5_compound_mask_witness :
    bit (relevantdofs ⟨1, 1, fun _ => [0]⟩ (fun _ => true) (fun _ => false))
        0 = bit (GetDofsOfElements ⟨1, 1, fun _ => [0]⟩ (fun _ => true)) 0
  ∧ bit (relevantdofs ⟨1, 1, fun _ => [0]⟩ (fun _ => true) (fun _ => false))
        (1 + 0) = bit (GetDofsOfElements ⟨1, 1, fun _ => [0]⟩ (fun _ => false)) 0 := by
  have h := C5_compound_mask ⟨1, 1, fun _ => [0]⟩ (fun _ => true) (fun _ => false)
    [true, true] 0 0 (by norm_num)
  exact ⟨h.1, h.2.1⟩

/-! ### Subdomain quadrature engine (volume decomposition of a cut triangle) -/

/-- A point of the plane, with exact rational coordinates. -/
structure Pt where
  x : ℚ
  y : ℚ

/-- A (sub-)triangle of the decomposition, given by its three corners. -/
structure Tri where
  a : Pt
  b : Pt
  c : Pt

/-- Twice the signed area of a triangle. -/
def area2 (t : Tri) : ℚ :=
  (t.b.x - t.a.x) * (t.c.y - t.a.y) - (t.c.x - t.a.x) * (t.b.y - t.a.y)

/-- The point where the linear interpolant vanishes on the segment from `p`
(value `fp`) to `q` (value `fq`): parameter `fp / (fp - fq)` along the
segment. -/
def cutPt (p q : Pt) (fp fq : ℚ) : Pt :=
  ⟨p.x + fp / (fp - fq) * (q.x - p.x), p.y + fp / (fp - fq) * (q.y - p.y)⟩

/-- Modelled from the spec: the core geometric step of the external quadrature
engine (absent from `src/`), spec §4.3 — decompose a triangular element along
the zero level of the linear interpolant of its vertex values, driven purely by
the vertex sign pattern.  Uncut sign patterns (all negative / none negative)
skip decomposition and keep the whole element; a cut pattern isolates one
vertex by sign and splits the element into one triangle on that vertex's side
and a quadrilateral (two triangles) on the other side, the cut points lying on
the two crossed edges.  A vertex with value exactly 0 counts to the
nonnegative side; the cut point of an edge whose far endpoint has value 0
degenerates to that endpoint, producing a zero-area sub-piece, which exact
rational arithmetic tolerates (the spec's degenerate-case policy).  Returns
(negative-side pieces, positive-side pieces). -/
def subTris (p0 p1 p2 : Pt) (f0 f1 f2 : ℚ) : List Tri × List Tri :=
  if f0 < 0 then
    if f1 < 0 then
      if f2 < 0 then
        ([⟨p0, p1, p2⟩], [])
      else
        ([⟨p0, p1, cutPt p1 p2 f1 f2⟩, ⟨p0, cutPt p1 p2 f1 f2, cutPt p0 p2 f0 f2⟩],
         [⟨cutPt p0 p2 f0 f2, cutPt p1 p2 f1 f2, p2⟩])
    else
      if f2 < 0 then
        ([⟨p0, cutPt p0 p1 f0 f1, cutPt p2 p1 f2 f1⟩, ⟨p0, cutPt p2 p1 f2 f1, p2⟩],
         [⟨cutPt p0 p1 f0 f1, p1, cutPt p2 p1 f2 f1⟩])
      else
        ([⟨p0, cutPt p0 p1 f0 f1, cutPt p0 p2 f0 f2⟩],
         [⟨cutPt p0 p1 f0 f1, p1, p2⟩, ⟨cutPt p0 p1 f0 f1, p2, cutPt p0 p2 f0 f2⟩])
  else
    if f1 < 0 then
      if f2 < 0 then
        ([⟨cutPt p1 p0 f1 f0, p1, p2⟩, ⟨cutPt p1 p0 f1 f0, p2, cutPt p2 p0 f2 f0⟩],
         [⟨p0, cutPt p1 p0 f1 f0, cutPt p2 p0 f2 f0⟩])
      else
        ([⟨cutPt p1 p0 f1 f0, p1, cutPt p1 p2 f1 f2⟩],
         [⟨p0, cutPt p1 p0 f1 f0, cutPt p1 p2 f1 f2⟩, ⟨p0, cutPt p1 p2 f1 f2, p2⟩])
    else
      if f2 < 0 then
        ([⟨cutPt p2 p0 f2 f0, cutPt p2 p1 f2 f1, p2⟩],
         [⟨p0, p1, cutPt p2 p1 f2 f1⟩, ⟨p0, cutPt p2 p1 f2 f1, cutPt p2 p0 f2 f0⟩])
      else
        ([], [⟨p0, p1, p2⟩])

/-- Centroid of a sub-triangle (the quadrature point of the order-1 rule). -/
def triCentroid (t : Tri) : Pt :=
  ⟨(t.a.x + t.b.x + t.c.x) / 3, (t.a.y + t.b.y + t.c.y) / 3⟩

/-- The quadrature rule for the negative subdomain: one (point, weight) pair
per sub-piece, weight = the piece's area. -/
def quadRuleNEG (p0 p1 p2 : Pt) (f0 f1 f2 : ℚ) : List (Pt × ℚ) :=
  ((subTris p0 p1 p2 f0 f1 f2).1).map (fun t => (triCentroid t, area2 t / 2))

/-- The quadrature rule for the positive subdomain. -/
def quadRulePOS (p0 p1 p2 : Pt) (f0 f1 f2 : ℚ) : List (Pt × ℚ) :=
  ((subTris p0 p1 p2 f0 f1 f2).2).map (fun t => (triCentroid t, area2 t / 2))

/-- Quadrature: sum of weight times integrand value at the rule's points. -/
def integrateQ (rule : List (Pt × ℚ)) (g : Pt → ℚ) : ℚ :=
  (rule.map (fun pw => pw.2 * g pw.1)).sum

/-- The measure assigned to the negative subdomain by the engine. -/
def negVol (p0 p1 p2 : Pt) (f0 f1 f2 : ℚ) : ℚ :=
  (((subTris p0 p1 p2 f0 f1 f2).1).map (fun t => area2 t / 2)).sum

/-- The measure assigned to the positive subdomain by the engine. -/
def posVol (p0 p1 p2 : Pt) (f0 f1 f2 : ℚ) : ℚ :=
  (((subTris p0 p1 p2 f0 f1 f2).2).map (fun t => area2 t / 2)).sum

lemma integrateQ_one_NEG (p0 p1 p2 : Pt) (f0 f1 f2 : ℚ) :
    integrateQ (quadRuleNEG p0 p1 p2 f0 f1 f2) (fun _ => 1) =
      negVol p0 p1 p2 f0 f1 f2 := by
  unfold integrateQ quadRuleNEG negVol
  rw [List.map_map]
  simp only [Function.comp, mul_one]
  rfl

lemma integrateQ_one_POS (p0 p1 p2 : Pt) (f0 f1 f2 : ℚ) :
    integrateQ (quadRulePOS p0 p1 p2 f0 f1 f2) (fun _ => 1) =
      posVol p0 p1 p2 f0 f1 f2 := by
  unfold integrateQ quadRulePOS posVol
  rw [List.map_map]
  simp only [Function.comp, mul_one]
  rfl

/-- The fraction of the element's area lying on the side of the vertex with
value `fi`, isolated by sign from the two vertices with values `fj`, `fk`:
the sub-triangle cut off at that vertex has area `isoFrac fi fj fk` times the
element's area. -/
def isoFrac (fi fj fk : ℚ) : ℚ :=
  (fi / (fi - fj)) * (fi / (fi - fk))

lemma negVol_TFF (x0 y0 x1 y1 x2 y2 f0 f1 f2 : ℚ)
    (h0 : f0 < 0) (h1 : ¬ f1 < 0) (h2 : ¬ f2 < 0) :
    negVol ⟨x0, y0⟩ ⟨x1, y1⟩ ⟨x2, y2⟩ f0 f1 f2 =
      isoFrac f0 f1 f2 * (area2 ⟨⟨x0, y0⟩, ⟨x1, y1⟩, ⟨x2, y2⟩⟩ / 2) := by
  rw [not_lt] at h1 h2
  have d01 : f0 - f1 ≠ 0 := by
    intro h
    nlinarith
  have d02 : f0 - f2 ≠ 0 := by
    intro h
    nlinarith
  simp only [negVol, subTris, if_pos h0, if_neg (not_lt.mpr h1), if_neg (not_lt.mpr h2),
    List.map_cons, List.map_nil, List.sum_cons, List.sum_nil, add_zero, isoFrac, area2, cutPt]
  field_simp
  ring

lemma posVol_TFF (x0 y0 x1 y1 x2 y2 f0 f1 f2 : ℚ)
    (h0 : f0 < 0) (h1 : ¬ f1 < 0) (h2 : ¬ f2 < 0) :
    posVol ⟨x0, y0⟩ ⟨x1, y1⟩ ⟨x2, y2⟩ f0 f1 f2 =
      (1 - isoFrac f0 f1 f2) * (area2 ⟨⟨x0, y0⟩, ⟨x1, y1⟩, ⟨x2, y2⟩⟩ / 2) := by
  rw [not_lt] at h1 h2
  have d01 : f0 - f1 ≠ 0 := by
    intro h
    nlinarith
  have d02 : f0 - f2 ≠ 0 := by
    intro h
    nlinarith
  simp only [posVol, subTris, if_pos h0, if_neg (not_lt.mpr h1), if_neg (not_lt.mpr h2),
    List.map_cons, List.map_nil, List.sum_cons, List.sum_nil, add_zero, isoFrac, area2, cutPt]
  field_simp
  ring

lemma negVol_FTF (x0 y0 x1 y1 x2 y2 f0 f1 f2 : ℚ)
    (h0 : ¬ f0 < 0) (h1 : f1 < 0) (h2 : ¬ f2 < 0) :
    negVol ⟨x0, y0⟩ ⟨x1, y1⟩ ⟨x2, y2⟩ f0 f1 f2 =
      isoFrac f1 f0 f2 * (area2 ⟨⟨x0, y0⟩, ⟨x1, y1⟩, ⟨x2, y2⟩⟩ / 2) := by
  rw [not_lt] at h0 h2
  have d10 : f1 - f0 ≠ 0 := by
    intro h
    linarith
  have d12 : f1 - f2 ≠ 0 := by
    intro h
    linarith
  simp only [negVol, subTris, if_neg (not_lt.mpr h0), if_pos h1, if_neg (not_lt.mpr h2),
    List.map_cons, List.map_nil, List.sum_cons, List.sum_nil, add_zero, isoFrac, area2, cutPt]
  field_simp
  ring

lemma posVol_FTF (x0 y0 x1 y1 x2 y2 f0 f1 f2 : ℚ)
    (h0 : ¬ f0 < 0) (h1 : f1 < 0) (h2 : ¬ f2 < 0) :
    posVol ⟨x0, y0⟩ ⟨x1, y1⟩ ⟨x2, y2⟩ f0 f1 f2 =
      (1 - isoFrac f1 f0 f2) * (area2 ⟨⟨x0, y0⟩, ⟨x1, y1⟩, ⟨x2, y2⟩⟩ / 2) := by
  rw [not_lt] at h0 h2
  have d10 : f1 - f0 ≠ 0 := by
    intro h
    linarith
  have d12 : f1 - f2 ≠ 0 := by
    intro h
    linarith
  simp only [posVol, subTris, if_neg (not_lt.mpr h0), if_pos h1, if_neg (not_lt.mpr h2),
    List.map_cons, List.map_nil, List.sum_cons, List.sum_nil, add_zero, isoFrac, area2, cutPt]
  field_simp
  ring

lemma negVol_FFT (x0 y0 x1 y1 x2 y2 f0 f1 f2 : ℚ)
    (h0 : ¬ f0 < 0) (h1 : ¬ f1 < 0) (h2 : f2 < 0) :
    negVol ⟨x0, y0⟩ ⟨x1, y1⟩ ⟨x2, y2⟩ f0 f1 f2 =
      isoFrac f2 f0 f1 * (area2 ⟨⟨x0, y0⟩, ⟨x1, y1⟩, ⟨x2, y2⟩⟩ / 2) := by
  rw [not_lt] at h0 h1
  have d20 : f2 - f0 ≠ 0 := by
    intro h
    linarith
  have d21 : f2 - f1 ≠ 0 := by
    intro h
    linarith
  simp only [negVol, subTris, if_neg (not_lt.mpr h0), if_neg (not_lt.mpr h1), if_pos h2,
    List.map_cons, List.map_nil, List.sum_cons, List.sum_nil, add_zero, isoFrac, area2, cutPt]
  field_simp
  ring

lemma posVol_FFT (x0 y0 x1 y1 x2 y2 f0 f1 f2 : ℚ)
    (h0 : ¬ f0 < 0) (h1 : ¬ f1 < 0) (h2 : f2 < 0) :
    posVol ⟨x0, y0⟩ ⟨x1, y1⟩ ⟨x2, y2⟩ f0 f1 f2 =
      (1 - isoFrac f2 f0 f1) * (area2 ⟨⟨x0, y0⟩, ⟨x1, y1⟩, ⟨x2, y2⟩⟩ / 2) := by
  rw [not_lt] at h0 h1
  have d20 : f2 - f0 ≠ 0 := by
    intro h
    linarith
  have d21 : f2 - f1 ≠ 0 := by
    intro h
    linarith
  simp only [posVol, subTris, if_neg (not_lt.mpr h0), if_neg (not_lt.mpr h1), if_pos h2,
    List.map_cons, List.map_nil, List.sum_cons, List.sum_nil, add_zero, isoFrac, area2, cutPt]
  field_simp
  ring

lemma negVol_TTF (x0 y0 x1 y1 x2 y2 f0 f1 f2 : ℚ)
    (h0 : f0 < 0) (h1 : f1 < 0) (h2 : ¬ f2 < 0) :
    negVol ⟨x0, y0⟩ ⟨x1, y1⟩ ⟨x2, y2⟩ f0 f1 f2 =
      (1 - isoFrac f2 f0 f1) * (area2 ⟨⟨x0, y0⟩, ⟨x1, y1⟩, ⟨x2, y2⟩⟩ / 2) := by
  rw [not_lt] at h2
  have d02 : f0 - f2 ≠ 0 := by
    intro h
    linarith
  have d12 : f1 - f2 ≠ 0 := by
    intro h
    linarith
  have d20 : f2 - f0 ≠ 0 := by
    intro h
    linarith
  have d21 : f2 - f1 ≠ 0 := by
    intro h
    linarith
  simp only [negVol, subTris, if_pos h0, if_pos h1, if_neg (not_lt.mpr h2),
    List.map_cons, List.map_nil, List.sum_cons, List.sum_nil, add_zero, isoFrac, area2, cutPt]
  field_simp
  ring

lemma posVol_TTF (x0 y0 x1 y1 x2 y2 f0 f1 f2 : ℚ)
    (h0 : f0 < 0) (h1 : f1 < 0) (h2 : ¬ f2 < 0) :
    posVol ⟨x0, y0⟩ ⟨x1, y1⟩ ⟨x2, y2⟩ f0 f1 f2 =
      isoFrac f2 f0 f1 * (area2 ⟨⟨x0, y0⟩, ⟨x1, y1⟩, ⟨x2, y2⟩⟩ / 2) := by
  rw [not_lt] at h2
  have d02 : f0 - f2 ≠ 0 := by
    intro h
    linarith
  have d12 : f1 - f2 ≠ 0 := by
    intro h
    linarith
  have d20 : f2 - f0 ≠ 0 := by
    intro h
    linarith
  have d21 : f2 - f1 ≠ 0 := by
    intro h
    linarith
  simp only [posVol, subTris, if_pos h0, if_pos h1, if_neg (not_lt.mpr h2),
    List.map_cons, List.map_nil, List.sum_cons, List.sum_nil, add_zero, isoFrac, area2, cutPt]
  field_simp
  ring

lemma negVol_TFT (x0 y0 x1 y1 x2 y2 f0 f1 f2 : ℚ)
    (h0 : f0 < 0) (h1 : ¬ f1 < 0) (h2 : f2 < 0) :
    negVol ⟨x0, y0⟩ ⟨x1, y1⟩ ⟨x2, y2⟩ f0 f1 f2 =
      (1 - isoFrac f1 f0 f2) * (area2 ⟨⟨x0, y0⟩, ⟨x1, y1⟩, ⟨x2, y2⟩⟩ / 2) := by
  rw [not_lt] at h1
  have d01 : f0 - f1 ≠ 0 := by
    intro h
    linarith
  have d21 : f2 - f1 ≠ 0 := by
    intro h
    linarith
  have d10 : f1 - f0 ≠ 0 := by
    intro h
    linarith
  have d12 : f1 - f2 ≠ 0 := by
    intro h
    linarith
  simp only [negVol, subTris, if_pos h0, if_neg (not_lt.mpr h1), if_pos h2,
    List.map_cons, List.map_nil, List.sum_cons, List.sum_nil, add_zero, isoFrac, area2, cutPt]
  field_simp
  ring

lemma posVol_TFT (x0 y0 x1 y1 x2 y2 f0 f1 f2 : ℚ)
    (h0 : f0 < 0) (h1 : ¬ f1 < 0) (h2 : f2 < 0) :
    posVol ⟨x0, y0⟩ ⟨x1, y1⟩ ⟨x2, y2⟩ f0 f1 f2 =
      isoFrac f1 f0 f2 * (area2 ⟨⟨x0, y0⟩, ⟨x1, y1⟩, ⟨x2, y2⟩⟩ / 2) := by
  rw [not_lt] at h1
  have d01 : f0 - f1 ≠ 0 := by
    intro h
    linarith
  have d21 : f2 - f1 ≠ 0 := by
    intro h
    linarith
  have d10 : f1 - f0 ≠ 0 := by
    intro h
    linarith
  have d12 : f1 - f2 ≠ 0 := by
    intro h
    linarith
  simp only [posVol, subTris, if_pos h0, if_neg (not_lt.mpr h1), if_pos h2,
    List.map_cons, List.map_nil, List.sum_cons, List.sum_nil, add_zero, isoFrac, area2, cutPt]
  field_simp
  ring

lemma negVol_FTT (x0 y0 x1 y1 x2 y2 f0 f1 f2 : ℚ)
    (h0 : ¬ f0 < 0) (h1 : f1 < 0) (h2 : f2 < 0) :
    negVol ⟨x0, y0⟩ ⟨x1, y1⟩ ⟨x2, y2⟩ f0 f1 f2 =
      (1 - isoFrac f0 f1 f2) * (area2 ⟨⟨x0, y0⟩, ⟨x1, y1⟩, ⟨x2, y2⟩⟩ / 2) := by
  rw [not_lt] at h0
  have d10 : f1 - f0 ≠ 0 := by
    intro h
    linarith
  have d20 : f2 - f0 ≠ 0 := by
    intro h
    linarith
  have d01 : f0 - f1 ≠ 0 := by
    intro h
    linarith
  have d02 : f0 - f2 ≠ 0 := by
    intro h
    linarith
  simp only [negVol, subTris, if_neg (not_lt.mpr h0), if_pos h1, if_pos h2,
    List.map_cons, List.map_nil, List.sum_cons, List.sum_nil, add_zero, isoFrac, area2, cutPt]
  field_simp
  ring

lemma posVol_FTT (x0 y0 x1 y1 x2 y2 f0 f1 f2 : ℚ)
    (h0 : ¬ f0 < 0) (h1 : f1 < 0) (h2 : f2 < 0) :
    posVol ⟨x0, y0⟩ ⟨x1, y1⟩ ⟨x2, y2⟩ f0 f1 f2 =
      isoFrac f0 f1 f2 * (area2 ⟨⟨x0, y0⟩, ⟨x1, y1⟩, ⟨x2, y2⟩⟩ / 2) := by
  rw [not_lt] at h0
  have d10 : f1 - f0 ≠ 0 := by
    intro h
    linarith
  have d20 : f2 - f0 ≠ 0 := by
    intro h
    linarith
  have d01 : f0 - f1 ≠ 0 := by
    intro h
    linarith
  have d02 : f0 - f2 ≠ 0 := by
    intro h
    linarith
  simp only [posVol, subTris, if_neg (not_lt.mpr h0), if_pos h1, if_pos h2,
    List.map_cons, List.map_nil, List.sum_cons, List.sum_nil, add_zero, isoFrac, area2, cutPt]
  field_simp
  ring

lemma negVol_TTT (p0 p1 p2 : Pt) (f0 f1 f2 : ℚ)
    (h0 : f0 < 0) (h1 : f1 < 0) (h2 : f2 < 0) :
    negVol p0 p1 p2 f0 f1 f2 = area2 ⟨p0, p1, p2⟩ / 2 := by
  simp [negVol, subTris, if_pos h0, if_pos h1, if_pos h2]

lemma posVol_TTT (p0 p1 p2 : Pt) (f0 f1 f2 : ℚ)
    (h0 : f0 < 0) (h1 : f1 < 0) (h2 : f2 < 0) :
    posVol p0 p1 p2 f0 f1 f2 = 0 := by
  simp [posVol, subTris, if_pos h0, if_pos h1, if_pos h2]

lemma negVol_FFF (p0 p1 p2 : Pt) (f0 f1 f2 : ℚ)
    (h0 : ¬ f0 < 0) (h1 : ¬ f1 < 0) (h2 : ¬ f2 < 0) :
    negVol p0 p1 p2 f0 f1 f2 = 0 := by
  simp [negVol, subTris, if_neg h0, if_neg h1, if_neg h2]

lemma posVol_FFF (p0 p1 p2 : Pt) (f0 f1 f2 : ℚ)
    (h0 : ¬ f0 < 0) (h1 : ¬ f1 < 0) (h2 : ¬ f2 < 0) :
    posVol p0 p1 p2 f0 f1 f2 = area2 ⟨p0, p1, p2⟩ / 2 := by
  simp [posVol, subTris, if_neg h0, if_neg h1, if_neg h2]

/-- Conservation of measure under the decomposition: the negative- and
positive-side sub-piece areas always add up to the whole element's area. -/
lemma negVol_add_posVol (p0 p1 p2 : Pt) (f0 f1 f2 : ℚ) :
    negVol p0 p1 p2 f0 f1 f2 + posVol p0 p1 p2 f0 f1 f2 =
      area2 ⟨p0, p1, p2⟩ / 2 := by
  obtain ⟨x0, y0⟩ := p0
  obtain ⟨x1, y1⟩ := p1
  obtain ⟨x2, y2⟩ := p2
  by_cases h0 : f0 < 0 <;> by_cases h1 : f1 < 0 <;> by_cases h2 : f2 < 0
  · rw [negVol_TTT _ _ _ _ _ _ h0 h1 h2, posVol_TTT _ _ _ _ _ _ h0 h1 h2]
    ring
  · rw [negVol_TTF _ _ _ _ _ _ _ _ _ h0 h1 h2, posVol_TTF _ _ _ _ _ _ _ _ _ h0 h1 h2]
    ring
  · rw [negVol_TFT _ _ _ _ _ _ _ _ _ h0 h1 h2, posVol_TFT _ _ _ _ _ _ _ _ _ h0 h1 h2]
    ring
  · rw [negVol_TFF _ _ _ _ _ _ _ _ _ h0 h1 h2, posVol_TFF _ _ _ _ _ _ _ _ _ h0 h1 h2]
    ring
  · rw [negVol_FTT _ _ _ _ _ _ _ _ _ h0 h1 h2, posVol_FTT _ _ _ _ _ _ _ _ _ h0 h1 h2]
    ring
  · rw [negVol_FTF _ _ _ _ _ _ _ _ _ h0 h1 h2, posVol_FTF _ _ _ _ _ _ _ _ _ h0 h1 h2]
    ring
  · rw [negVol_FFT _ _ _ _ _ _ _ _ _ h0 h1 h2, posVol_FFT _ _ _ _ _ _ _ _ _ h0 h1 h2]
    ring
  · rw [negVol_FFF _ _ _ _ _ _ h0 h1 h2, posVol_FFF _ _ _ _ _ _ h0 h1 h2]
    ring

lemma isoFrac_mem_neg (fi fj fk : ℚ) (hi : fi < 0) (hj : 0 ≤ fj) (hk : 0 ≤ fk) :
    0 ≤ isoFrac fi fj fk ∧ isoFrac fi fj fk ≤ 1 := by
  unfold isoFrac
  have t1n : 0 ≤ fi / (fi - fj) :=
    div_nonneg_of_nonpos (le_of_lt hi) (by linarith)
  have t2n : 0 ≤ fi / (fi - fk) :=
    div_nonneg_of_nonpos (le_of_lt hi) (by linarith)
  have t1u : fi / (fi - fj) ≤ 1 := div_le_one_of_ge (by linarith) (by linarith)
  have t2u : fi / (fi - fk) ≤ 1 := div_le_one_of_ge (by linarith) (by linarith)
  exact ⟨mul_nonneg t1n t2n, le_trans (mul_le_of_le_one_left t2n t1u) t2u⟩

lemma isoFrac_mem_pos (fi fj fk : ℚ) (hi : 0 ≤ fi) (hj : fj < 0) (hk : fk < 0) :
    0 ≤ isoFrac fi fj fk ∧ isoFrac fi fj fk ≤ 1 := by
  unfold isoFrac
  have d1 : (0:ℚ) < fi - fj := by linarith
  have d2 : (0:ℚ) < fi - fk := by linarith
  have t1n : 0 ≤ fi / (fi - fj) := div_nonneg hi (le_of_lt d1)
  have t2n : 0 ≤ fi / (fi - fk) := div_nonneg hi (le_of_lt d2)
  have t1u : fi / (fi - fj) ≤ 1 := (div_le_one d1).mpr (by linarith)
  have t2u : fi / (fi - fk) ≤ 1 := (div_le_one d2).mpr (by linarith)
  exact ⟨mul_nonneg t1n t2n, le_trans (mul_le_of_le_one_left t2n t1u) t2u⟩

/-- On a nonnegatively-oriented element the negative-side measure lies
between 0 and the element's measure. -/
lemma negVol_bounds (p0 p1 p2 : Pt) (f0 f1 f2 : ℚ)
    (hA : 0 ≤ area2 ⟨p0, p1, p2⟩) :
    0 ≤ negVol p0 p1 p2 f0 f1 f2 ∧
      negVol p0 p1 p2 f0 f1 f2 ≤ area2 ⟨p0, p1, p2⟩ / 2 := by
  obtain ⟨x0, y0⟩ := p0
  obtain ⟨x1, y1⟩ := p1
  obtain ⟨x2, y2⟩ := p2
  have hA2 : 0 ≤ area2 ⟨⟨x0, y0⟩, ⟨x1, y1⟩, ⟨x2, y2⟩⟩ / 2 := by linarith
  by_cases h0 : f0 < 0 <;> by_cases h1 : f1 < 0 <;> by_cases h2 : f2 < 0
  · rw [negVol_TTT _ _ _ _ _ _ h0 h1 h2]
    exact ⟨hA2, le_refl _⟩
  · rw [negVol_TTF _ _ _ _ _ _ _ _ _ h0 h1 h2]
    obtain ⟨hr0, hr1⟩ := isoFrac_mem_pos f2 f0 f1 (not_lt.mp h2) h0 h1
    constructor
    · exact mul_nonneg (by linarith) hA2
    · exact mul_le_of_le_one_left hA2 (by linarith)
  · rw [negVol_TFT _ _ _ _ _ _ _ _ _ h0 h1 h2]
    obtain ⟨hr0, hr1⟩ := isoFrac_mem_pos f1 f0 f2 (not_lt.mp h1) h0 h2
    constructor
    · exact mul_nonneg (by linarith) hA2
    · exact mul_le_of_le_one_left hA2 (by linarith)
  · rw [negVol_TFF _ _ _ _ _ _ _ _ _ h0 h1 h2]
    obtain ⟨hr0, hr1⟩ := isoFrac_mem_neg f0 f1 f2 h0 (not_lt.mp h1) (not_lt.mp h2)
    constructor
    · exact mul_nonneg hr0 hA2
    · exact mul_le_of_le_one_left hA2 hr1
  · rw [negVol_FTT _ _ _ _ _ _ _ _ _ h0 h1 h2]
    obtain ⟨hr0, hr1⟩ := isoFrac_mem_pos f0 f1 f2 (not_lt.mp h0) h1 h2
    constructor
    · exact mul_nonneg (by linarith) hA2
    · exact mul_le_of_le_one_left hA2 (by linarith)
  · rw [negVol_FTF _ _ _ _ _ _ _ _ _ h0 h1 h2]
    obtain ⟨hr0, hr1⟩ := isoFrac_mem_neg f1 f0 f2 h1 (not_lt.mp h0) (not_lt.mp h2)
    constructor
    · exact mul_nonneg hr0 hA2
    · exact mul_le_of_le_one_left hA2 hr1
  · rw [negVol_FFT _ _ _ _ _ _ _ _ _ h0 h1 h2]
    obtain ⟨hr0, hr1⟩ := isoFrac_mem_neg f2 f0 f1 h2 (not_lt.mp h0) (not_lt.mp h1)
    constructor
    · exact mul_nonneg hr0 hA2
    · exact mul_le_of_le_one_left hA2 hr1
  · rw [negVol_FFF _ _ _ _ _ _ h0 h1 h2]
    exact ⟨le_refl _, hA2⟩

/-- C6: for every (cut) element, the quadrature engine's integral of the
constant function 1 over the NEG subregion plus its integral of 1 over the POS
subregion equals the element's total measure (the interface part contributes
nothing to the volume). -/
theorem C6_measure_conservation (p0 p1 p2 : Pt) (f0 f1 f2 : ℚ)
    (_hcut : (f0 < 0 ∨ f1 < 0 ∨ f2 < 0) ∧ (0 < f0 ∨ 0 < f1 ∨ 0 < f2)) :
    integrateQ (quadRuleNEG p0 p1 p2 f0 f1 f2) (fun _ => 1) +
      integrateQ (quadRulePOS p0 p1 p2 f0 f1 f2) (fun _ => 1) =
      area2 ⟨p0, p1, p2⟩ / 2 := by
  rw [integrateQ_one_NEG, integrateQ_one_POS]
  exact negVol_add_posVol p0 p1 p2 f0 f1 f2

/-- C6 (witness): on the reference triangle with vertex values (-1, 1, 1)
(a cut element), the NEG and POS quadrature integrals of 1 add up to the
triangle's measure 1/2. -/
theorem C6_measure_conservation_witness :
    integrateQ (quadRuleNEG ⟨0, 0⟩ ⟨1, 0⟩ ⟨0, 1⟩ (-1) 1 1) (fun _ => 1) +
      integrateQ (quadRulePOS ⟨0, 0⟩ ⟨1, 0⟩ ⟨0, 1⟩ (-1) 1 1) (fun _ => 1) =
      area2 ⟨⟨0, 0⟩, ⟨1, 0⟩, ⟨0, 1⟩⟩ / 2 :=
  C6_measure_conservation ⟨0, 0⟩ ⟨1, 0⟩ ⟨0, 1⟩ (-1) 1 1
    ⟨Or.inl (by norm_num), Or.inr (Or.inl (by norm_num))⟩

/-- Modelled from the spec: the external `CutRatioGF(ci)` — the "Hansbo"
cut-ratio field κ₋ = |T ∩ Ω₋^lin| / |T| (notebook markdown). -/
def CutRatioGF (p0 p1 p2 : Pt) (f0 f1 f2 : ℚ) : ℚ :=
  negVol p0 p1 p2 f0 f1 f2 / (area2 ⟨p0, p1, p2⟩ / 2)

/-- The notebook's averaging pair: `kappa = (CutRatioGF(ci), 1 - CutRatioGF(ci))`. -/
def kappa (p0 p1 p2 : Pt) (f0 f1 f2 : ℚ) : ℚ × ℚ :=
  (CutRatioGF p0 p1 p2 f0 f1 f2, 1 - CutRatioGF p0 p1 p2 f0 f1 f2)

/-- C9: on every nondegenerate (positively oriented) element the two Hansbo
averaging weights sum to one and each lies in [0, 1] — κ₋ = |T ∩ Ω₋^lin|/|T| —
so the Nitsche average operator is a convex combination of the two one-sided
values. -/
theorem C9_kappa_convex (p0 p1 p2 : Pt) (f0 f1 f2 : ℚ)
    (hA : 0 < area2 ⟨p0, p1, p2⟩) :
    (kappa p0 p1 p2 f0 f1 f2).1 + (kappa p0 p1 p2 f0 f1 f2).2 = 1
  ∧ 0 ≤ (kappa p0 p1 p2 f0 f1 f2).1 ∧ (kappa p0 p1 p2 f0 f1 f2).1 ≤ 1
  ∧ 0 ≤ (kappa p0 p1 p2 f0 f1 f2).2 ∧ (kappa p0 p1 p2 f0 f1 f2).2 ≤ 1 := by
  obtain ⟨hv0, hvle⟩ := negVol_bounds p0 p1 p2 f0 f1 f2 (le_of_lt hA)
  have hA2 : (0:ℚ) < area2 ⟨p0, p1, p2⟩ / 2 := by linarith
  have hk0 : 0 ≤ CutRatioGF p0 p1 p2 f0 f1 f2 :=
    div_nonneg hv0 (le_of_lt hA2)
  have hk1 : CutRatioGF p0 p1 p2 f0 f1 f2 ≤ 1 :=
    (div_le_one hA2).mpr hvle
  refine ⟨by simp [kappa], ?_, ?_, ?_, ?_⟩ <;> simp only [kappa]
  · exact hk0
  · exact hk1
  · linarith
  · linarith

/-- C9 (witness): the reference triangle cut with vertex values (-1, 1, 1):
the two kappa weights sum to one and are both within [0, 1]. -/
theorem C9_kappa_convex_witness :
    (kappa ⟨0, 0⟩ ⟨1, 0⟩ ⟨0, 1⟩ (-1) 1 1).1 +
      (kappa ⟨0, 0⟩ ⟨1, 0⟩ ⟨0, 1⟩ (-1) 1 1).2 = 1
  ∧ 0 ≤ (kappa ⟨0, 0⟩ ⟨1, 0⟩ ⟨0, 1⟩ (-1) 1 1).1 := by
  have h := C9_kappa_convex ⟨0, 0⟩ ⟨1, 0⟩ ⟨0, 1⟩ (-1) 1 1 (by norm_num [area2])
  exact ⟨h.1, h.2.1⟩

/-! ### The composed two-sided solution field -/

/-- Modelled from the spec: the external conditional `IfPos` (absent from
`src/`): `IfPos c a b` yields `a` where `c` is strictly positive and `b`
otherwise — the positive-side branch is selected only for strictly positive
first argument. -/
def IfPos (c a b : ℚ) : ℚ :=
  if 0 < c then a else b

/-- The notebook's displayed (markdown) definition of the composed solution:
`u = u₋ where φ_h^lin < 0` and `u = u₊ where φ_h^lin ≥ 0`. -/
def uDoc (lsetVal upos uneg : ℚ) : ℚ :=
  if lsetVal < 0 then uneg else upos

/-- C10: at a point where the P1 level-set value is exactly zero, the composed
field `uh = IfPos(lsetp1, u_pos, u_neg)` of the notebook evaluates to the
negative-side component `u_neg`, whereas the accompanying displayed definition
(`u = u₊` where `φ_h^lin ≥ 0`) assigns `u_pos` there. -/
theorem C10_ifpos_at_zero (upos uneg : ℚ) :
    IfPos 0 upos uneg = uneg ∧ uDoc 0 upos uneg = upos := by
  constructor
  · unfold IfPos
    norm_num
  · unfold uDoc
    norm_num

end NgsxfemSpec
